import Mathlib

/-!
Verification of the hal-cgp Cartesian Genetic Programming library against its
natural-language specification.

The repository sources available are `cgp/node_impl.py` (operator-node
primitives with their per-backend output templates), `gp/abstract_individual.py`
(the abstract individual container), `test/test_cgp_evolve.py` and
`examples/example_mountain_car.py`.  The core modules (genome, cartesian graph,
population, evolutionary algorithm, evolve driver) are not among the sources,
so those parts are modelled from the specification, as marked on each
definition.
-/

namespace HalCgp

/-! ### Random number generator

Modelled from the spec: the spec (§9, §5) requires "an explicit RNG handle
threaded through every stochastic operation"; the concrete generator
(numpy's RNG in the missing core) is modelled as a linear congruential
generator over `Nat` with explicit state passing. -/

/-- RNG state. -/
abbrev Rng := Nat

/-- One LCG step of the modelled RNG. -/
def rngNext (s : Rng) : Nat := (1103515245 * s + 12345) % 2147483648

/-- Draw a value `< bound` (when `0 < bound`) and advance the state. -/
def randBelow (s : Rng) (bound : Nat) : Nat × Rng :=
  (rngNext s % bound, rngNext s)

/-- Draw a uniformly chosen element of `l` and advance the state. -/
def sampleFrom (l : List Nat) (s : Rng) : Nat × Rng :=
  let (i, s') := randBelow s l.length
  (l.getD i 0, s')

/-- Draw `count` elements of `l`, threading the RNG state. -/
def sampleMany (l : List Nat) : Nat → Rng → List Nat × Rng
  | 0, s => ([], s)
  | n + 1, s =>
    let (v, s') := sampleFrom l s
    let (vs, s'') := sampleMany l n s'
    (v :: vs, s'')

theorem randBelow_lt (s : Rng) (b : Nat) (hb : 0 < b) : (randBelow s b).1 < b :=
  Nat.mod_lt _ hb

theorem sampleFrom_mem (l : List Nat) (s : Rng) (hl : l ≠ []) :
    (sampleFrom l s).1 ∈ l := by
  unfold sampleFrom
  have hlt : (randBelow s l.length).1 < l.length :=
    randBelow_lt s l.length (List.length_pos.mpr hl)
  simp only [List.getD_eq_getElem?_getD, List.getElem?_eq_getElem hlt, Option.getD_some]
  exact List.getElem_mem hlt

/-! ### Genome parameters and layout

Modelled from the spec (§3 Data model, §4.2 Genome): a genome is a flat
sequence of integer genes, one block `[function_id, input_ref_0, ...,
input_ref_{max_arity-1}]` per interior node (nodes ordered column-major in an
`n_rows × n_columns` grid), followed by `n_outputs` output-reference genes.
Addresses: primary inputs are `0 .. n_inputs-1`, the interior node in column
`c`, row `r` has address `n_inputs + c*n_rows + r`. -/

structure GenomeParams where
  n_inputs : Nat
  n_outputs : Nat
  n_columns : Nat
  n_rows : Nat
  levels_back : Nat
  /-- arity of each registered primitive, by function id -/
  arities : List Nat
  max_arity : Nat

namespace GenomeParams

/-- Number of interior nodes. -/
def nNodes (p : GenomeParams) : Nat := p.n_rows * p.n_columns

/-- Number of registered primitives (index = function id). -/
def n_primitives (p : GenomeParams) : Nat := p.arities.length

/-- Genes per interior-node block. -/
def blockSize (p : GenomeParams) : Nat := 1 + p.max_arity

/-- Arity of function id `f`. -/
def arityOf (p : GenomeParams) (f : Nat) : Nat := p.arities.getD f 0

/-- Total number of genes in a genome. -/
def nGenes (p : GenomeParams) : Nat := p.nNodes * p.blockSize + p.n_outputs

/-- Well-formedness of a parameter set: at least one primary input, at least
one primitive, and no declared arity exceeding `max_arity` (spec §4.1: fails
with ConfigurationError otherwise). -/
def ok (p : GenomeParams) : Prop :=
  0 < p.n_inputs ∧ 0 < p.n_primitives ∧ p.arities.all (· ≤ p.max_arity) = true

instance (p : GenomeParams) : Decidable p.ok := by
  unfold ok; infer_instance

theorem ok.arityOf_le {p : GenomeParams} (h : p.ok) (f : Nat) :
    p.arityOf f ≤ p.max_arity := by
  unfold arityOf
  rw [List.getD_eq_getElem?_getD]
  cases hf : p.arities[f]? with
  | none => simp
  | some a =>
    have hall := h.2.2
    rw [List.all_eq_true] at hall
    have ha : a ∈ p.arities := List.getElem?_mem hf
    simpa using hall a ha

end GenomeParams

/-- Addresses a node in column `c` may reference (spec §3: "a node in column
`c` may only reference primary inputs or nodes in columns
`c-levels_back .. c-1`"): all primary inputs, then the interior nodes of the
admissible earlier columns. -/
def permissibleInputs (p : GenomeParams) (c : Nat) : List Nat :=
  List.range p.n_inputs ++
    (List.range' (c - p.levels_back) (c - (c - p.levels_back))).flatMap
      (fun col => (List.range p.n_rows).map (fun r => p.n_inputs + col * p.n_rows + r))

/-- Addresses an output gene may reference (spec §4.2: "uniformly over all
valid (input or interior-node) indices"). -/
def permissibleOutputs (p : GenomeParams) : List Nat :=
  List.range (p.n_inputs + p.nNodes)

theorem permissibleInputs_ne_nil (p : GenomeParams) (c : Nat) (h : 0 < p.n_inputs) :
    permissibleInputs p c ≠ [] := by
  unfold permissibleInputs
  intro hcon
  rcases List.append_eq_nil.mp hcon with ⟨h1, _⟩
  rw [List.range_eq_nil] at h1
  omega

/-- Every permissible input reference of a column-`c` node is a primary input
or lies in a column in the window `c-levels_back .. c-1`. -/
theorem mem_permissibleInputs {p : GenomeParams} {c x : Nat}
    (hx : x ∈ permissibleInputs p c) :
    x < p.n_inputs ∨
      ∃ col r, c - p.levels_back ≤ col ∧ col < c ∧ r < p.n_rows ∧
        x = p.n_inputs + col * p.n_rows + r := by
  unfold permissibleInputs at hx
  rcases List.mem_append.mp hx with h | h
  · exact Or.inl (List.mem_range.mp h)
  · right
    rcases List.mem_flatMap.mp h with ⟨col, hcol, hxm⟩
    rcases List.mem_map.mp hxm with ⟨r, hr, hxe⟩
    rw [List.mem_range'] at hcol
    rcases hcol with ⟨i, hilt, hieq⟩
    refine ⟨col, r, by omega, by omega, List.mem_range.mp hr, hxe.symm⟩

/-- A permissible input reference of the node at address
`n_inputs + c*n_rows + row` is strictly smaller than that address. -/
theorem permissibleInputs_lt {p : GenomeParams} {c x : Nat}
    (hx : x ∈ permissibleInputs p c) (row : Nat) :
    x < p.n_inputs + c * p.n_rows + row := by
  rcases mem_permissibleInputs hx with h | ⟨col, r, _, hcol, hr, hxe⟩
  · omega
  · have : (col + 1) * p.n_rows ≤ c * p.n_rows := Nat.mul_le_mul_right _ hcol
    subst hxe
    nlinarith

/-! ### Genome

Modelled from the spec (§3, §4.2): the missing core module `cgp/genome.py`.
A genome stores one gene block per interior node plus the output genes; the
raw flat gene array ("dna") is their concatenation in the layout of §3. -/

structure Genome where
  /-- one block `[function_id, input_ref_0, ..., input_ref_{max_arity-1}]` per
  interior node, in column-major node order -/
  blocks : List (List Nat)
  /-- the `n_outputs` output-reference genes -/
  outputs : List Nat
deriving DecidableEq, Repr

namespace Genome

/-- The raw flat gene array of the genome. -/
def dna (g : Genome) : List Nat := g.blocks.flatten ++ g.outputs

end Genome

/-- Column of the interior node with node index `node` (column-major order). -/
def nodeColumn (p : GenomeParams) (node : Nat) : Nat := node / p.n_rows

/-- A valid interior-node block for a node in column `c`: correct size, a
registered function id, and every input-reference gene inside the
levels-back window of column `c`. -/
def validBlock (p : GenomeParams) (c : Nat) (b : List Nat) : Prop :=
  b.length = p.blockSize ∧ b.getD 0 0 < p.n_primitives ∧
    ∀ k < p.max_arity, b.getD (1 + k) 0 ∈ permissibleInputs p c

instance (p : GenomeParams) (c : Nat) (b : List Nat) : Decidable (validBlock p c b) := by
  unfold validBlock; infer_instance

/-- Validity (closure) of a whole genome: one valid block per interior node
and every output gene referencing an existing input or interior node. -/
def validGenome (p : GenomeParams) (g : Genome) : Prop :=
  g.blocks.length = p.nNodes ∧
    (∀ node < p.nNodes, validBlock p (nodeColumn p node) (g.blocks.getD node [])) ∧
    g.outputs.length = p.n_outputs ∧
    ∀ o ∈ g.outputs, o < p.n_inputs + p.nNodes

instance (p : GenomeParams) (g : Genome) : Decidable (validGenome p g) := by
  unfold validGenome
  have : (∀ node < p.nNodes, validBlock p (nodeColumn p node) (g.blocks.getD node [])) ↔
      ∀ node ∈ List.range p.nNodes, validBlock p (nodeColumn p node) (g.blocks.getD node []) := by
    simp [List.mem_range]
  rw [this]
  infer_instance

/-- Modelled from the spec (§4.2 `random`): fill one interior block with a
uniformly sampled function id and uniformly sampled input references
respecting the levels-back window of column `c`. -/
def randomBlock (p : GenomeParams) (c : Nat) (s : Rng) : List Nat × Rng :=
  let (fid, s1) := sampleFrom (List.range p.n_primitives) s
  let (refs, s2) := sampleMany (permissibleInputs p c) p.max_arity s1
  (fid :: refs, s2)

/-- Modelled from the spec (§4.2 `random`): fill `count` consecutive interior
blocks starting at node index `node`, threading the RNG. -/
def randomBlocks (p : GenomeParams) : Nat → Nat → Rng → List (List Nat) × Rng
  | _, 0, s => ([], s)
  | node, count + 1, s =>
    let (b, s1) := randomBlock p (nodeColumn p node) s
    let (rest, s2) := randomBlocks p (node + 1) count s1
    (b :: rest, s2)

/-- Modelled from the spec (§4.2 `random`): a uniformly sampled valid genome;
interior blocks first (column-major), then output genes sampled uniformly
over all input and interior-node addresses. -/
def randomGenome (p : GenomeParams) (s : Rng) : Genome × Rng :=
  let (bs, s1) := randomBlocks p 0 p.nNodes s
  let (outs, s2) := sampleMany (permissibleOutputs p) p.n_outputs s1
  (⟨bs, outs⟩, s2)

/-- Modelled from the spec (§4.2 `mutate`): one point mutation — pick a
uniformly random gene position and replace it with a uniformly random valid
value for that position's role (function id / input reference in that
column's levels-back window / output reference). -/
def mutateOnce (p : GenomeParams) (g : Genome) (s : Rng) : Genome × Rng :=
  let (pos, s1) := randBelow s p.nGenes
  if pos < p.nNodes * p.blockSize then
    let node := pos / p.blockSize
    let slot := pos % p.blockSize
    let b := g.blocks.getD node []
    if slot = 0 then
      let (fid, s2) := sampleFrom (List.range p.n_primitives) s1
      ({ g with blocks := g.blocks.set node (b.set 0 fid) }, s2)
    else
      let (r, s2) := sampleFrom (permissibleInputs p (nodeColumn p node)) s1
      ({ g with blocks := g.blocks.set node (b.set slot r) }, s2)
  else
    let j := pos - p.nNodes * p.blockSize
    let (o, s2) := sampleFrom (permissibleOutputs p) s1
    ({ g with outputs := g.outputs.set j o }, s2)

/-- Modelled from the spec (§4.2 `mutate`): `n` independent point mutations. -/
def mutate (p : GenomeParams) : Nat → Genome × Rng → Genome × Rng
  | 0, gs => gs
  | n + 1, (g, s) => mutate p n (mutateOnce p g s)

/-! ### Decoding and evaluation

Modelled from the spec (§4.2 `decode`, §4.3 Code Generator): evaluation of a
genome on given primary-input values by backward recursion through the
reference edges, parameterised over the backend's primitive semantics
`sem : function id → argument values → result` (fallible, so that arithmetic
errors of generated code can be modelled; spec §4.3 failure mode).  A
reference to a non-existent address yields the structural error
`"missing reference"`. -/

/-- Function id stored in the block of interior node `node`. -/
def fidAt (g : Genome) (node : Nat) : Nat := (g.blocks.getD node []).getD 0 0

/-- Input-reference genes of interior node `node`, one per argument of its
function (unused trailing reference genes are ignored, spec §3). -/
def refsAt (p : GenomeParams) (g : Genome) (node : Nat) : List Nat :=
  (List.range (p.arityOf (fidAt g node))).map fun k => (g.blocks.getD node []).getD (1 + k) 0

/-- Evaluate a list of referenced addresses with the given address evaluator,
propagating the first error. -/
def evalArgs (ev : Nat → Except String α) : List Nat → Except String (List α)
  | [] => .ok []
  | r :: rs =>
    match ev r with
    | .error e => .error e
    | .ok v =>
      match evalArgs ev rs with
      | .error e => .error e
      | .ok vs => .ok (v :: vs)

/-- Evaluate the value at address `a` (primary input or interior node) with
the given fuel, under backend semantics `sem`. -/
def evalAddr (p : GenomeParams) (sem : Nat → List α → Except String α)
    (g : Genome) (inputs : List α) : Nat → Nat → Except String α
  | 0 => fun _ => .error "out of fuel"
  | fuel + 1 => fun a =>
    if a < p.n_inputs then
      match inputs[a]? with
      | some v => .ok v
      | none => .error "missing reference"
    else if a < p.n_inputs + p.nNodes then
      match evalArgs (evalAddr p sem g inputs fuel) (refsAt p g (a - p.n_inputs)) with
      | .error e => .error e
      | .ok args => sem (fidAt g (a - p.n_inputs)) args
    else .error "missing reference"

/-- Evaluate a genome: one value per output gene, in output-gene order
(spec §4.3). -/
def evalGenome (p : GenomeParams) (sem : Nat → List α → Except String α)
    (g : Genome) (inputs : List α) : Except String (List α) :=
  evalArgs (fun a => evalAddr p sem g inputs (a + 1) a) g.outputs

/-- Lift an error-free (total) backend semantics into the fallible form. -/
def totalSem (sem : Nat → List α → α) : Nat → List α → Except String α :=
  fun f args => .ok (sem f args)

/-- Interior addresses backward-reachable from address `a` (with fuel),
mirroring the recursion of `evalAddr`; primary inputs are not collected
(active nodes are interior nodes, spec §3). -/
def reachAddr (p : GenomeParams) (g : Genome) : Nat → Nat → List Nat
  | 0 => fun _ => []
  | fuel + 1 => fun a =>
    if a < p.n_inputs then []
    else if a < p.n_inputs + p.nNodes then
      a :: (refsAt p g (a - p.n_inputs)).flatMap (reachAddr p g fuel)
    else []

/-- The active interior addresses of a genome: those backward-reachable from
some output gene (spec §3 "Active-node set"). -/
def activeAddrs (p : GenomeParams) (g : Genome) : List Nat :=
  g.outputs.flatMap fun o => reachAddr p g (o + 1) o

/-! ### Closure of random construction and mutation -/

theorem sampleMany_length (l : List Nat) :
    ∀ (n : Nat) (s : Rng), (sampleMany l n s).1.length = n := by
  intro n
  induction n with
  | zero => intro s; rfl
  | succ m ih => intro s; simp [sampleMany, ih]

theorem sampleMany_mem (l : List Nat) (hl : l ≠ []) :
    ∀ (n : Nat) (s : Rng), ∀ v ∈ (sampleMany l n s).1, v ∈ l := by
  intro n
  induction n with
  | zero => intro s v hv; simp [sampleMany] at hv
  | succ m ih =>
    intro s v hv
    simp only [sampleMany, List.mem_cons] at hv
    rcases hv with h | h
    · subst h; exact sampleFrom_mem l s hl
    · exact ih _ v h

theorem validBlock_cons (p : GenomeParams) (c fid : Nat) (refs : List Nat)
    (hlen : refs.length = p.max_arity) (hfid : fid < p.n_primitives)
    (hrefs : ∀ v ∈ refs, v ∈ permissibleInputs p c) :
    validBlock p c (fid :: refs) := by
  refine ⟨by simp [GenomeParams.blockSize]; omega, by simpa using hfid, ?_⟩
  intro k hk
  have hkk : 1 + k = k + 1 := by omega
  rw [hkk, List.getD_cons_succ]
  have hk' : k < refs.length := by omega
  apply hrefs
  simp only [List.getD_eq_getElem?_getD, List.getElem?_eq_getElem hk', Option.getD_some]
  exact List.getElem_mem hk'

theorem randomBlock_valid (p : GenomeParams) (hok : p.ok) (c : Nat) (s : Rng) :
    validBlock p c (randomBlock p c s).1 := by
  unfold randomBlock
  apply validBlock_cons
  · exact sampleMany_length _ _ _
  · have h1 : (List.range p.n_primitives) ≠ [] := by
      rw [Ne, List.range_eq_nil]
      have := hok.2.1
      omega
    have := sampleFrom_mem (List.range p.n_primitives) s h1
    simpa using this
  · exact sampleMany_mem _ (permissibleInputs_ne_nil p c hok.1) _ _

theorem randomBlocks_length (p : GenomeParams) :
    ∀ (count node : Nat) (s : Rng), (randomBlocks p node count s).1.length = count := by
  intro count
  induction count with
  | zero => intro node s; rfl
  | succ m ih => intro node s; simp [randomBlocks, ih]

theorem randomBlocks_valid (p : GenomeParams) (hok : p.ok) :
    ∀ (count node : Nat) (s : Rng), ∀ i < count,
      validBlock p (nodeColumn p (node + i)) ((randomBlocks p node count s).1.getD i []) := by
  intro count
  induction count with
  | zero => intro node s i hi; omega
  | succ m ih =>
    intro node s i hi
    cases i with
    | zero =>
      simpa [randomBlocks] using randomBlock_valid p hok (nodeColumn p node) s
    | succ j =>
      have := ih (node + 1) (randomBlock p (nodeColumn p node) s).2 j (by omega)
      simpa [randomBlocks, Nat.add_assoc, Nat.add_comm 1 j] using this

theorem permissibleOutputs_ne_nil (p : GenomeParams) (h : 0 < p.n_inputs) :
    permissibleOutputs p ≠ [] := by
  unfold permissibleOutputs
  rw [Ne, List.range_eq_nil]
  omega

/-- Random construction yields a valid (closed) genome. -/
theorem randomGenome_valid (p : GenomeParams) (hok : p.ok) (s : Rng) :
    validGenome p (randomGenome p s).1 := by
  unfold randomGenome validGenome
  refine ⟨by simp [randomBlocks_length], ?_, by simp [sampleMany_length], ?_⟩
  · intro node hnode
    simpa using randomBlocks_valid p hok p.nNodes 0 s node hnode
  · intro o ho
    have hmem := sampleMany_mem (permissibleOutputs p) (permissibleOutputs_ne_nil p hok.1)
      p.n_outputs (randomBlocks p 0 p.nNodes s).2 o (by simpa using ho)
    simpa [permissibleOutputs] using hmem

theorem validBlock_set_fid (p : GenomeParams) {c : Nat} {b : List Nat}
    (hb : validBlock p c b) {fid : Nat} (hfid : fid < p.n_primitives) :
    validBlock p c (b.set 0 fid) := by
  obtain ⟨hlen, _, hrefs⟩ := hb
  have h0 : 0 < b.length := by
    rw [hlen]; unfold GenomeParams.blockSize; omega
  refine ⟨by simp [hlen], ?_, ?_⟩
  · rw [List.getD_eq_getElem?_getD, List.getElem?_set_self h0]
    simpa using hfid
  · intro k hk
    rw [List.getD_eq_getElem?_getD, List.getElem?_set_ne (by omega)]
    rw [← List.getD_eq_getElem?_getD]
    exact hrefs k hk

theorem validBlock_set_ref (p : GenomeParams) {c : Nat} {b : List Nat}
    (hb : validBlock p c b) {slot r : Nat} (hs1 : 1 ≤ slot) (hs2 : slot < p.blockSize)
    (hr : r ∈ permissibleInputs p c) :
    validBlock p c (b.set slot r) := by
  obtain ⟨hlen, hfid, hrefs⟩ := hb
  have hsl : slot < b.length := by rw [hlen]; exact hs2
  refine ⟨by simp [hlen], ?_, ?_⟩
  · rw [List.getD_eq_getElem?_getD, List.getElem?_set_ne (by omega)]
    rw [← List.getD_eq_getElem?_getD]
    exact hfid
  · intro k hk
    by_cases hks : 1 + k = slot
    · subst hks
      rw [List.getD_eq_getElem?_getD, List.getElem?_set_self hsl]
      simpa using hr
    · rw [List.getD_eq_getElem?_getD, List.getElem?_set_ne (by omega)]
      rw [← List.getD_eq_getElem?_getD]
      exact hrefs k hk

theorem validGenome_set_block (p : GenomeParams) {g : Genome} (hv : validGenome p g)
    {node : Nat} (hnode : node < p.nNodes) {newb : List Nat}
    (hb : validBlock p (nodeColumn p node) newb) :
    validGenome p { g with blocks := g.blocks.set node newb } := by
  obtain ⟨hblen, hblocks, holen, houts⟩ := hv
  have hn : node < g.blocks.length := by rw [hblen]; exact hnode
  refine ⟨by simp [hblen], ?_, holen, houts⟩
  intro node' hnode'
  by_cases he : node' = node
  · subst he
    simpa [List.getD_eq_getElem?_getD, List.getElem?_set_self hn] using hb
  · rw [List.getD_eq_getElem?_getD, List.getElem?_set_ne (by omega)]
    rw [← List.getD_eq_getElem?_getD]
    exact hblocks node' hnode'

theorem validGenome_set_output (p : GenomeParams) {g : Genome} (hv : validGenome p g)
    (j : Nat) {o : Nat} (ho : o < p.n_inputs + p.nNodes) :
    validGenome p { g with outputs := g.outputs.set j o } := by
  obtain ⟨hblen, hblocks, holen, houts⟩ := hv
  refine ⟨hblen, hblocks, by simp [holen], ?_⟩
  intro o' ho'
  rcases List.mem_or_eq_of_mem_set ho' with h | h
  · exact houts o' h
  · subst h; exact ho

/-- One point mutation preserves genome validity: the replacement value is
sampled from the valid set for the gene's role (spec §4.2: "the legality
constraint is enforced at sampling time"). -/
theorem mutateOnce_valid (p : GenomeParams) (hok : p.ok) {g : Genome}
    (hv : validGenome p g) (s : Rng) : validGenome p (mutateOnce p g s).1 := by
  unfold mutateOnce
  have hbs : 0 < p.blockSize := by unfold GenomeParams.blockSize; omega
  rcases hre : randBelow s p.nGenes with ⟨pos, s1⟩
  dsimp only
  by_cases hpi : pos < p.nNodes * p.blockSize
  · have hnode : pos / p.blockSize < p.nNodes :=
      Nat.div_lt_of_lt_mul (by rw [Nat.mul_comm] at hpi; exact hpi)
    by_cases hslot : pos % p.blockSize = 0
    · simp only [hpi, if_true, hslot, if_pos]
      apply validGenome_set_block p hv hnode
      apply validBlock_set_fid p (hv.2.1 _ hnode)
      have h1 : (List.range p.n_primitives) ≠ [] := by
        rw [Ne, List.range_eq_nil]
        have := hok.2.1
        omega
      simpa using sampleFrom_mem (List.range p.n_primitives) _ h1
    · simp only [hpi, if_true, hslot, if_neg, if_false]
      apply validGenome_set_block p hv hnode
      apply validBlock_set_ref p (hv.2.1 _ hnode)
      · omega
      · exact Nat.mod_lt _ hbs
      · exact sampleFrom_mem _ _ (permissibleInputs_ne_nil p _ hok.1)
  · simp only [hpi, if_false]
    apply validGenome_set_output p hv
    have := sampleFrom_mem (permissibleOutputs p) s1 (permissibleOutputs_ne_nil p hok.1)
    simpa [permissibleOutputs] using this

/-- Any number of point mutations preserves genome validity. -/
theorem mutate_valid (p : GenomeParams) (hok : p.ok) :
    ∀ (n : Nat) (g : Genome) (s : Rng), validGenome p g →
      validGenome p (mutate p n (g, s)).1 := by
  intro n
  induction n with
  | zero => intro g s hv; exact hv
  | succ m ih =>
    intro g s hv
    have h1 := mutateOnce_valid p hok hv s
    show validGenome p (mutate p m (mutateOnce p g s)).1
    have : mutateOnce p g s = ((mutateOnce p g s).1, (mutateOnce p g s).2) := rfl
    rw [this]
    exact ih _ _ h1

/-! ### Decoding a valid genome never encounters a missing reference -/

theorem refsAt_mem_permissible (p : GenomeParams) (hok : p.ok) {g : Genome}
    (hv : validGenome p g) {node : Nat} (hnode : node < p.nNodes) :
    ∀ r ∈ refsAt p g node, r ∈ permissibleInputs p (nodeColumn p node) := by
  intro r hr
  unfold refsAt at hr
  rcases List.mem_map.mp hr with ⟨k, hk, hre⟩
  rw [List.mem_range] at hk
  have hk' : k < p.max_arity := lt_of_lt_of_le hk (hok.arityOf_le _)
  have := (hv.2.1 node hnode).2.2 k hk'
  rw [hre] at this
  exact this

/-- A permissible reference of the node with node index `node` is a strictly
smaller address than the node's own address `n_inputs + node`. -/
theorem permissible_ref_lt_addr (p : GenomeParams) {node r : Nat}
    (hr : r ∈ permissibleInputs p (nodeColumn p node)) :
    r < p.n_inputs + node := by
  have h := permissibleInputs_lt hr (node % p.n_rows)
  have hdm : p.n_rows * (node / p.n_rows) + node % p.n_rows = node := Nat.div_add_mod node p.n_rows
  unfold nodeColumn at h
  have : node / p.n_rows * p.n_rows = p.n_rows * (node / p.n_rows) := Nat.mul_comm _ _
  omega

/-- A permissible reference of an existing interior node is the address of a
primary input or of an existing interior node. -/
theorem permissible_ref_lt_total (p : GenomeParams) {node r : Nat} (hnode : node < p.nNodes)
    (hr : r ∈ permissibleInputs p (nodeColumn p node)) :
    r < p.n_inputs + p.nNodes := by
  rcases mem_permissibleInputs hr with h | ⟨col, rr, _, hcol, hrr, hre⟩
  · omega
  · have hrows : 0 < p.n_rows := by
      by_contra hc
      have : p.n_rows = 0 := by omega
      unfold GenomeParams.nNodes at hnode
      omega
    have hcolumns : node / p.n_rows < p.n_columns := by
      apply Nat.div_lt_of_lt_mul
      unfold GenomeParams.nNodes at hnode
      exact hnode
    have hc2 : col < p.n_columns := by unfold nodeColumn at hcol; omega
    have : col * p.n_rows + rr < p.n_columns * p.n_rows := by
      calc col * p.n_rows + rr < col * p.n_rows + p.n_rows := by omega
        _ = (col + 1) * p.n_rows := by ring
        _ ≤ p.n_columns * p.n_rows := Nat.mul_le_mul_right _ (by omega)
    have hnn : p.nNodes = p.n_rows * p.n_columns := rfl
    subst hre
    have : p.n_columns * p.n_rows = p.n_rows * p.n_columns := Nat.mul_comm _ _
    omega

theorem evalArgs_isOk {α : Type} (ev : Nat → Except String α) (rs : List Nat)
    (h : ∀ r ∈ rs, ∃ v, ev r = .ok v) : ∃ vs, evalArgs ev rs = .ok vs := by
  induction rs with
  | nil => exact ⟨[], rfl⟩
  | cons r rs ih =>
    rcases h r (List.mem_cons_self _ _) with ⟨v, hv⟩
    rcases ih (fun r' hr' => h r' (List.mem_cons_of_mem _ hr')) with ⟨vs, hvs⟩
    exact ⟨v :: vs, by simp [evalArgs, hv, hvs]⟩

/-- On a valid genome with the right number of primary-input values, address
evaluation under a total (error-free) backend semantics always succeeds:
decoding never encounters a missing or forward reference. -/
theorem evalAddr_isOk {α : Type} (p : GenomeParams) (hok : p.ok) (sem : Nat → List α → α)
    {g : Genome} (hv : validGenome p g) {inputs : List α}
    (hin : inputs.length = p.n_inputs) :
    ∀ (fuel a : Nat), a < fuel → a < p.n_inputs + p.nNodes →
      ∃ v, evalAddr p (totalSem sem) g inputs fuel a = .ok v := by
  intro fuel
  induction fuel with
  | zero => intro a ha; omega
  | succ m ih =>
    intro a ha hrange
    by_cases hai : a < p.n_inputs
    · have h1 : a < inputs.length := by omega
      refine ⟨inputs[a], ?_⟩
      simp [evalAddr, hai, List.getElem?_eq_getElem h1]
    · have hnode : a - p.n_inputs < p.nNodes := by omega
      have hargs : ∃ args, evalArgs (evalAddr p (totalSem sem) g inputs m)
          (refsAt p g (a - p.n_inputs)) = .ok args := by
        apply evalArgs_isOk
        intro r hr
        have hperm := refsAt_mem_permissible p hok hv hnode r hr
        have hlt := permissible_ref_lt_addr p hperm
        have hlt2 := permissible_ref_lt_total p hnode hperm
        exact ih r (by omega) hlt2
      rcases hargs with ⟨args, hargs⟩
      refine ⟨sem (fidAt g (a - p.n_inputs)) args, ?_⟩
      simp [evalAddr, hai, hrange, hargs, totalSem]

/-- Decoding/evaluating a valid genome never encounters a missing reference
(spec §8 Closure). -/
theorem evalGenome_isOk {α : Type} (p : GenomeParams) (hok : p.ok) (sem : Nat → List α → α)
    {g : Genome} (hv : validGenome p g) {inputs : List α}
    (hin : inputs.length = p.n_inputs) :
    ∃ vs, evalGenome p (totalSem sem) g inputs = .ok vs := by
  apply evalArgs_isOk
  intro o ho
  exact evalAddr_isOk p hok sem hv hin (o + 1) o (by omega) (hv.2.2.2 o ho)

/-- The genome configuration of `test_cgp_evolve.py` (`n_inputs=2`,
`n_outputs=1`, `n_columns=3`, `n_rows=3`, `levels_back=2`, primitives
`[Add, Sub, Mul, ConstantFloat]` with arities `[2, 2, 2, 0]`). -/
def pTest : GenomeParams :=
  { n_inputs := 2, n_outputs := 1, n_columns := 3, n_rows := 3, levels_back := 2,
    arities := [2, 2, 2, 0], max_arity := 2 }

/-- The closure properties of claim C1, for a fixed parameter set: random
genomes are valid, mutation preserves validity, every input-reference gene of
a valid genome points to a primary input or to a node in a strictly earlier
column inside the levels-back window, every output gene points to an existing
address, with `levels_back = 1` no reference of a column-2 node reaches a
column-0 node, and decoding/evaluating a valid genome never encounters a
missing reference. -/
def ClosureProps (p : GenomeParams) : Prop :=
  (∀ s : Rng, validGenome p (randomGenome p s).1) ∧
  (∀ (n : Nat) (g : Genome) (s : Rng), validGenome p g →
      validGenome p (mutate p n (g, s)).1) ∧
  (∀ g : Genome, validGenome p g → ∀ node < p.nNodes, ∀ k < p.max_arity,
      (g.blocks.getD node []).getD (1 + k) 0 < p.n_inputs ∨
        ∃ col r, nodeColumn p node - p.levels_back ≤ col ∧ col < nodeColumn p node ∧
          r < p.n_rows ∧
          (g.blocks.getD node []).getD (1 + k) 0 = p.n_inputs + col * p.n_rows + r) ∧
  (∀ g : Genome, validGenome p g → ∀ o ∈ g.outputs, o < p.n_inputs + p.nNodes) ∧
  (p.levels_back = 1 → ∀ g : Genome, validGenome p g → ∀ node < p.nNodes,
      nodeColumn p node = 2 → ∀ k < p.max_arity, ∀ r < p.n_rows,
        (g.blocks.getD node []).getD (1 + k) 0 ≠ p.n_inputs + r) ∧
  (∀ (α : Type) (sem : Nat → List α → α) (g : Genome) (inputs : List α),
      validGenome p g → inputs.length = p.n_inputs →
      ∃ vs, evalGenome p (totalSem sem) g inputs = .ok vs)

/-- **C1** — For every genome produced by random construction or by any
sequence of mutate operations, every interior node's input reference and
every output reference points only to primary inputs or to nodes in strictly
earlier columns within the levels-back window of the referencing gene's
column (in particular, with `levels_back = 1`, no reference from a column-2
node ever reaches a column-0 node), and decoding never encounters a missing
or forward reference. -/
theorem claim_C1 (p : GenomeParams) (hok : p.ok) : ClosureProps p := by
  refine ⟨randomGenome_valid p hok, fun n g s hg => mutate_valid p hok n g s hg,
    ?_, fun g hg => hg.2.2.2, ?_, fun α sem g inputs hg hin => evalGenome_isOk p hok sem hg hin⟩
  · intro g hg node hnode k hk
    have hmem := (hg.2.1 node hnode).2.2 k hk
    exact mem_permissibleInputs hmem
  · intro hlb g hg node hnode hcol k hk r hr
    have hmem := (hg.2.1 node hnode).2.2 k hk
    rcases mem_permissibleInputs hmem with h | ⟨col, rr, hlo, hhi, hrr, hre⟩
    · omega
    · rw [hcol] at hlo hhi
      rw [hlb] at hlo
      have hcol1 : col = 1 := by omega
      subst hcol1
      rw [hre]
      omega

/-- Witness for C1 at the concrete test configuration. -/
theorem claim_C1_witness : pTest.ok ∧ ClosureProps pTest :=
  ⟨by decide, claim_C1 pTest (by decide)⟩

/-! ### Neutral drift: inactive genes do not affect the phenotype -/

theorem evalArgs_congr {α : Type} (ev1 ev2 : Nat → Except String α) (rs : List Nat)
    (h : ∀ r ∈ rs, ev1 r = ev2 r) : evalArgs ev1 rs = evalArgs ev2 rs := by
  induction rs with
  | nil => rfl
  | cons r rs ih =>
    have h1 := h r (List.mem_cons_self _ _)
    have h2 := ih (fun r' hr' => h r' (List.mem_cons_of_mem _ hr'))
    simp [evalArgs, h1, h2]

/-- Evaluation at an address depends only on the blocks of the interior nodes
backward-reachable from it. -/
theorem evalAddr_congr {α : Type} (p : GenomeParams) (sem : Nat → List α → Except String α)
    (g1 g2 : Genome) (inputs : List α) :
    ∀ (fuel a : Nat),
      (∀ b ∈ reachAddr p g1 fuel a,
        g1.blocks.getD (b - p.n_inputs) [] = g2.blocks.getD (b - p.n_inputs) []) →
      evalAddr p sem g1 inputs fuel a = evalAddr p sem g2 inputs fuel a := by
  intro fuel
  induction fuel with
  | zero => intro a _; rfl
  | succ m ih =>
    intro a hagree
    by_cases hai : a < p.n_inputs
    · simp [evalAddr, hai]
    · by_cases hrange : a < p.n_inputs + p.nNodes
      · have hmem : a ∈ reachAddr p g1 (m + 1) a := by
          simp [reachAddr, hai, hrange]
        have hblk := hagree a hmem
        have hfid : fidAt g1 (a - p.n_inputs) = fidAt g2 (a - p.n_inputs) := by
          unfold fidAt; rw [hblk]
        have hrefs : refsAt p g1 (a - p.n_inputs) = refsAt p g2 (a - p.n_inputs) := by
          unfold refsAt; rw [hblk, hfid]
        have hargs : evalArgs (evalAddr p sem g1 inputs m) (refsAt p g1 (a - p.n_inputs)) =
            evalArgs (evalAddr p sem g2 inputs m) (refsAt p g2 (a - p.n_inputs)) := by
          rw [← hrefs]
          apply evalArgs_congr
          intro r hr
          apply ih
          intro b hb
          apply hagree
          simp only [reachAddr, hai, if_false, hrange, if_true]
          exact List.mem_cons_of_mem _ (List.mem_flatMap.mpr ⟨r, hr, hb⟩)
        simp only [evalAddr, hai, if_false, hrange, if_true, hargs, hfid]
      · simp [evalAddr, hai, hrange]

/-- Whole-genome evaluation depends only on the output genes and on the
blocks of the active interior nodes: for any backend semantics, two genomes
that agree there are phenotypically identical (spec §3 "neutral drift"). -/
theorem evalGenome_congr {α : Type} (p : GenomeParams) (sem : Nat → List α → Except String α)
    (g1 g2 : Genome) (inputs : List α) (houts : g1.outputs = g2.outputs)
    (hagree : ∀ b ∈ activeAddrs p g1,
      g1.blocks.getD (b - p.n_inputs) [] = g2.blocks.getD (b - p.n_inputs) []) :
    evalGenome p sem g1 inputs = evalGenome p sem g2 inputs := by
  unfold evalGenome
  rw [← houts]
  apply evalArgs_congr
  intro o ho
  apply evalAddr_congr
  intro b hb
  apply hagree
  unfold activeAddrs
  exact List.mem_flatMap.mpr ⟨o, ho, hb⟩

/-- **C4** — For every genome and every mutation that changes only genes of
non-active (unreachable-from-output) nodes, the generated output of every
backend on every input is identical between the genome and the mutated
genome, while the raw gene arrays of the two compare unequal. -/
theorem claim_C4 (p : GenomeParams) (g1 g2 : Genome)
    (houts : g1.outputs = g2.outputs)
    (hagree : ∀ b ∈ activeAddrs p g1,
      g1.blocks.getD (b - p.n_inputs) [] = g2.blocks.getD (b - p.n_inputs) [])
    (hne : g1.dna ≠ g2.dna) :
    g1.dna ≠ g2.dna ∧
      ∀ (α : Type) (sem : Nat → List α → Except String α) (inputs : List α),
        evalGenome p sem g1 inputs = evalGenome p sem g2 inputs :=
  ⟨hne, fun _ sem inputs => evalGenome_congr p sem g1 g2 inputs houts hagree⟩

/-- A two-node genome whose second node (address 2) is inactive. -/
def gNeutralA : Genome := ⟨[[0, 0, 0], [0, 1, 1]], [1]⟩

/-- The same genome after mutating genes of the inactive node only. -/
def gNeutralB : Genome := ⟨[[0, 0, 0], [1, 0, 0]], [1]⟩

/-- Parameters for the neutral-drift witness: one input, a 2-column × 1-row
grid, primitives of arities `[2, 0]`. -/
def pNeutral : GenomeParams :=
  { n_inputs := 1, n_outputs := 1, n_columns := 2, n_rows := 1, levels_back := 2,
    arities := [2, 0], max_arity := 2 }

/-- Witness for C4: a concrete mutation confined to an inactive node changes
the raw gene array but no backend output. -/
theorem claim_C4_witness :
    gNeutralA.dna ≠ gNeutralB.dna ∧
      ∀ (α : Type) (sem : Nat → List α → Except String α) (inputs : List α),
        evalGenome pNeutral sem gNeutralA inputs = evalGenome pNeutral sem gNeutralB inputs :=
  claim_C4 pNeutral gNeutralA gNeutralB (by decide) (by decide) (by decide)

/-! ### Operator-node primitives (from `cgp/node_impl.py`)

The scalar/sympy output template of each primitive (its `_def_output` string)
is embedded as an expression tree `Ex`; `**` is kept abstract as a function
`pw` so that no floating-point power semantics needs to be fixed.  The
`_def_numpy_output` / `_def_torch_output` templates (and the numpy/torch
broadcasting of `_def_output` for primitives without an explicit one) are
embedded as elementwise vector semantics below. -/

/-- Expression trees for the `_def_output` template strings: `x_i`
placeholders, the named parameter `<p>`, literals, and the arithmetic
operators appearing in `node_impl.py`. -/
inductive Ex where
  | var : Nat → Ex
  | param : Ex
  | lit : ℚ → Ex
  | add : Ex → Ex → Ex
  | sub : Ex → Ex → Ex
  | mul : Ex → Ex → Ex
  | div : Ex → Ex → Ex
  | pow : Ex → Ex → Ex

/-- Evaluate a template expression: `pw` interprets `**`, `v` the `x_i`
placeholders, `pv` the parameter `<p>`. -/
def Ex.eval (pw : ℚ → ℚ → ℚ) (v : Nat → ℚ) (pv : ℚ) : Ex → ℚ
  | .var i => v i
  | .param => pv
  | .lit q => q
  | .add a b => a.eval pw v pv + b.eval pw v pv
  | .sub a b => a.eval pw v pv - b.eval pw v pv
  | .mul a b => a.eval pw v pv * b.eval pw v pv
  | .div a b => a.eval pw v pv / b.eval pw v pv
  | .pow a b => pw (a.eval pw v pv) (b.eval pw v pv)

/-- An operator node: arity and the `_def_output` template. -/
structure OperatorNode where
  _arity : Nat
  _def_output : Ex

namespace node_impl

/-- `ConstantFloat`: arity 0, `_def_output = "1.0"`. -/
def ConstantFloat : OperatorNode := ⟨0, .lit 1⟩

/-- `Add`: arity 2, `_def_output = "x_0 + x_1"`. -/
def Add : OperatorNode := ⟨2, .add (.var 0) (.var 1)⟩

/-- `Sub`: arity 2, `_def_output = "x_0 - x_1"`. -/
def Sub : OperatorNode := ⟨2, .sub (.var 0) (.var 1)⟩

/-- `Mul`: arity 2, `_def_output = "x_0 * x_1"`. -/
def Mul : OperatorNode := ⟨2, .mul (.var 0) (.var 1)⟩

/-- `Div`: arity 2, `_def_output = "x_0 / x_1"`. -/
def Div : OperatorNode := ⟨2, .div (.var 0) (.var 1)⟩

/-- `Pow`: arity 2, `_def_output = "x_0 ** x_1"` (numpy template
`"np.power(x_0, x_1)"` is embedded in `nodeImplNumpySem`). -/
def Pow : OperatorNode := ⟨2, .pow (.var 0) (.var 1)⟩

/-- `Parameter`: arity 0, `_def_output = "<p>"`. -/
def Parameter : OperatorNode := ⟨0, .param⟩

/-- `Parameter._initial_values = {"<p>": lambda: 1.0}` — the initial-value
sampler of the single parameter, indexed by call number. -/
def Parameter_initial_values : List (String × (Nat → ℚ)) := [("<p>", fun _ => 1)]

end node_impl

/-- The registered primitives in source order (function id = index):
`[ConstantFloat, Add, Sub, Mul, Div, Pow, Parameter]`. -/
def nodeImplPrimitives : List OperatorNode :=
  [node_impl.ConstantFloat, node_impl.Add, node_impl.Sub, node_impl.Mul,
   node_impl.Div, node_impl.Pow, node_impl.Parameter]

/-- Scalar-backend semantics of the primitives (Python evaluation of the
`_def_output` templates): function id, argument values, result. -/
def nodeImplScalarSem (pw : ℚ → ℚ → ℚ) (pv : ℚ) : Nat → List ℚ → ℚ
  | 0, _ => 1
  | 1, args => args.getD 0 0 + args.getD 1 0
  | 2, args => args.getD 0 0 - args.getD 1 0
  | 3, args => args.getD 0 0 * args.getD 1 0
  | 4, args => args.getD 0 0 / args.getD 1 0
  | 5, args => pw (args.getD 0 0) (args.getD 1 0)
  | 6, _ => pv
  | _, _ => 0

/-- Array-vectorized (numpy) backend semantics of the primitives: the
explicit `_def_numpy_output` templates (`np.ones(x.shape[0]) * 1.0` for
`ConstantFloat`, `np.power(x_0, x_1)` for `Pow`, `np.ones(x.shape[0]) * <p>`
for `Parameter`) and numpy broadcasting of `_def_output` for the others. -/
def nodeImplNumpySem (pw : ℚ → ℚ → ℚ) (pv : ℚ) {ι : Type} :
    Nat → List (ι → ℚ) → ι → ℚ
  | 0, _ => fun _ => 1 * 1
  | 1, args => fun i => args.getD 0 (fun _ => 0) i + args.getD 1 (fun _ => 0) i
  | 2, args => fun i => args.getD 0 (fun _ => 0) i - args.getD 1 (fun _ => 0) i
  | 3, args => fun i => args.getD 0 (fun _ => 0) i * args.getD 1 (fun _ => 0) i
  | 4, args => fun i => args.getD 0 (fun _ => 0) i / args.getD 1 (fun _ => 0) i
  | 5, args => fun i => pw (args.getD 0 (fun _ => 0) i) (args.getD 1 (fun _ => 0) i)
  | 6, _ => fun _ => 1 * pv
  | _, _ => fun _ => 0

/-- Tensor (torch) backend semantics of the primitives: the explicit
`_def_torch_output` templates (`torch.ones(1).expand(x.shape[0]) * 1.0` for
`ConstantFloat`, `torch.ones(1).expand(x.shape[0]) * <p>` for `Parameter`)
and broadcasting of `_def_output` for the others. -/
def nodeImplTorchSem (pw : ℚ → ℚ → ℚ) (pv : ℚ) {ι : Type} :
    Nat → List (ι → ℚ) → ι → ℚ
  | 0, _ => fun _ => 1 * 1
  | 1, args => fun i => args.getD 0 (fun _ => 0) i + args.getD 1 (fun _ => 0) i
  | 2, args => fun i => args.getD 0 (fun _ => 0) i - args.getD 1 (fun _ => 0) i
  | 3, args => fun i => args.getD 0 (fun _ => 0) i * args.getD 1 (fun _ => 0) i
  | 4, args => fun i => args.getD 0 (fun _ => 0) i / args.getD 1 (fun _ => 0) i
  | 5, args => fun i => pw (args.getD 0 (fun _ => 0) i) (args.getD 1 (fun _ => 0) i)
  | 6, _ => fun _ => 1 * pv
  | _, _ => fun _ => 0

/-! ### Backend consistency -/

theorem getD_map_apply {ι : Type} (args : List (ι → ℚ)) (i : ι) (k : Nat) :
    (args.map (fun w => w i)).getD k 0 = args.getD k (fun _ => 0) i := by
  simp only [List.getD_eq_getElem?_getD, List.getElem?_map]
  cases args[k]? <;> simp

theorem getD_map_apply' {ι : Type} (o : Option (ι → ℚ)) (i : ι) :
    (Option.map (fun w => w i) o).getD 0 = o.getD (fun _ => 0) i := by
  cases o <;> simp

/-- Pointwise consistency of the numpy backend with the scalar backend, per
primitive: at every batch index, each primitive's vector semantics equals its
scalar semantics on the per-index argument values. -/
theorem nodeImplNumpySem_pointwise (pw : ℚ → ℚ → ℚ) (pv : ℚ) {ι : Type} (i : ι)
    (f : Nat) (args : List (ι → ℚ)) :
    nodeImplNumpySem pw pv f args i =
      nodeImplScalarSem pw pv f (args.map (fun w => w i)) := by
  rcases f with _ | _ | _ | _ | _ | _ | _ | f <;>
    simp [nodeImplNumpySem, nodeImplScalarSem, getD_map_apply, getD_map_apply']

/-- Pointwise consistency of the torch backend with the scalar backend. -/
theorem nodeImplTorchSem_pointwise (pw : ℚ → ℚ → ℚ) (pv : ℚ) {ι : Type} (i : ι)
    (f : Nat) (args : List (ι → ℚ)) :
    nodeImplTorchSem pw pv f args i =
      nodeImplScalarSem pw pv f (args.map (fun w => w i)) := by
  rcases f with _ | _ | _ | _ | _ | _ | _ | f <;>
    simp [nodeImplTorchSem, nodeImplScalarSem, getD_map_apply, getD_map_apply']

theorem evalArgs_pointwise {ι : Type} (i : ι)
    (evV : Nat → Except String (ι → ℚ)) (evS : Nat → Except String ℚ)
    (h : ∀ r, evS r = (evV r).map (fun w => w i)) (rs : List Nat) :
    evalArgs evS rs = (evalArgs evV rs).map (List.map (fun w => w i)) := by
  induction rs with
  | nil => simp [evalArgs, Except.map]
  | cons r rs ih =>
    cases hr : evV r with
    | error e => simp [evalArgs, h r, hr, Except.map]
    | ok v =>
      cases hrs : evalArgs evV rs with
      | error e =>
        rw [hrs] at ih
        simp [evalArgs, h r, hr, hrs, ih, Except.map]
      | ok vs =>
        rw [hrs] at ih
        simp [evalArgs, h r, hr, hrs, ih, Except.map]

/-- Evaluating a genome under a vector backend and projecting to batch index
`i` is the same as evaluating under the scalar backend on the index-`i`
values, whenever the two backend semantics agree pointwise. -/
theorem evalAddr_pointwise (p : GenomeParams) {ι : Type} (i : ι)
    (semS : Nat → List ℚ → ℚ) (semV : Nat → List (ι → ℚ) → ι → ℚ)
    (H : ∀ f args, semV f args i = semS f (args.map (fun w => w i)))
    (g : Genome) (inputsV : List (ι → ℚ)) :
    ∀ (fuel a : Nat),
      evalAddr p (totalSem semS) g (inputsV.map (fun w => w i)) fuel a =
        (evalAddr p (totalSem semV) g inputsV fuel a).map (fun w => w i) := by
  intro fuel
  induction fuel with
  | zero => intro a; simp [evalAddr, Except.map]
  | succ m ih =>
    intro a
    by_cases hai : a < p.n_inputs
    · simp only [evalAddr, hai, if_true, List.getElem?_map]
      cases inputsV[a]? <;> simp [Except.map]
    · by_cases hrange : a < p.n_inputs + p.nNodes
      · have hargs := evalArgs_pointwise i
          (evalAddr p (totalSem semV) g inputsV m)
          (evalAddr p (totalSem semS) g (inputsV.map (fun w => w i)) m)
          ih (refsAt p g (a - p.n_inputs))
        simp only [evalAddr, hai, if_false, hrange, if_true, hargs]
        cases evalArgs (evalAddr p (totalSem semV) g inputsV m)
            (refsAt p g (a - p.n_inputs)) with
        | error e => simp [Except.map]
        | ok args => simp [Except.map, totalSem, H]
      · simp [evalAddr, hai, hrange, Except.map]

theorem evalGenome_pointwise (p : GenomeParams) {ι : Type} (i : ι)
    (semS : Nat → List ℚ → ℚ) (semV : Nat → List (ι → ℚ) → ι → ℚ)
    (H : ∀ f args, semV f args i = semS f (args.map (fun w => w i)))
    (g : Genome) (inputsV : List (ι → ℚ)) :
    evalGenome p (totalSem semS) g (inputsV.map (fun w => w i)) =
      (evalGenome p (totalSem semV) g inputsV).map (List.map (fun w => w i)) := by
  unfold evalGenome
  exact evalArgs_pointwise i _ _
    (fun a => evalAddr_pointwise p i semS semV H g inputsV (a + 1) a) g.outputs

/-- The `_def_output` templates of the seven primitives, in source order
(the symbolic-expression backend emits exactly these templates). -/
def nodeImplTemplates : List Ex := nodeImplPrimitives.map (·._def_output)

/-- **C7** — For every decoded genome and fixed input values, the scalar
callable, the array-vectorized callable, and the symbolic-expression backend
produce equal results: each primitive's per-backend templates (e.g. `Pow`'s
`x_0 ** x_1` versus `np.power(x_0, x_1)`, or `ConstantFloat`'s `1.0` versus
`np.ones(x.shape[0]) * 1.0`) denote the same mathematical function, the
symbolic template of each primitive evaluates to exactly the scalar backend's
value, and whole-genome numpy evaluation projected at any batch index equals
whole-genome scalar evaluation on that index's inputs. -/
theorem claim_C7 (pw : ℚ → ℚ → ℚ) (pv : ℚ) :
    (∀ (ι : Type) (i : ι) (f : Nat) (args : List (ι → ℚ)),
        nodeImplNumpySem pw pv f args i =
          nodeImplScalarSem pw pv f (args.map (fun w => w i))) ∧
    (∀ f < 7, ∀ args : List ℚ,
        nodeImplScalarSem pw pv f args =
          (nodeImplTemplates.getD f (.lit 0)).eval pw (fun k => args.getD k 0) pv) ∧
    (∀ (p : GenomeParams) (g : Genome) (ι : Type) (i : ι) (inputs : List (ι → ℚ)),
        evalGenome p (totalSem (nodeImplScalarSem pw pv)) g (inputs.map (fun w => w i)) =
          (evalGenome p (totalSem (nodeImplNumpySem pw pv)) g inputs).map
            (List.map (fun w => w i))) := by
  refine ⟨fun ι i f args => nodeImplNumpySem_pointwise pw pv i f args, ?_, ?_⟩
  · intro f hf args
    interval_cases f <;>
      simp [nodeImplScalarSem, nodeImplTemplates, nodeImplPrimitives, Ex.eval,
        node_impl.ConstantFloat, node_impl.Add, node_impl.Sub, node_impl.Mul,
        node_impl.Div, node_impl.Pow, node_impl.Parameter]
  · intro p g ι i inputs
    exact evalGenome_pointwise p i _ _
      (fun f args => nodeImplNumpySem_pointwise pw pv i f args) g inputs

/-- Witness for C7: the `Pow` primitive's numpy template applied at a
concrete batch and the template agreement at function id 5. -/
theorem claim_C7_witness :
    (nodeImplNumpySem (fun a b => a * b) 0 (5 : Nat)
        [fun _ => (3 : ℚ), fun _ => (4 : ℚ)] (0 : Fin 1) =
      nodeImplScalarSem (fun a b => a * b) 0 5
        (([fun _ => (3 : ℚ), fun _ => (4 : ℚ)] :
          List (Fin 1 → ℚ)).map (fun w => w 0))) ∧
    (5 : Nat) < 7 ∧
    nodeImplScalarSem (fun a b => a * b) 0 5 [3, 4] =
      (nodeImplTemplates.getD 5 (.lit 0)).eval (fun a b => a * b)
        (fun k => ([3, 4] : List ℚ).getD k 0) 0 :=
  ⟨(claim_C7 (fun a b => a * b) 0).1 (Fin 1) 0 5 _, by decide,
    (claim_C7 (fun a b => a * b) 0).2.1 5 (by decide) [3, 4]⟩

/-! ### Individuals and objectives

`Individual` embeds `gp/abstract_individual.py`'s `AbstractIndividual`
container (fitness, genome, and the identifier `idx` used "to keep track of
all unique genomes"); fitness values live in `WithBot ℚ` so that the
`-np.inf` sentinel of `example_mountain_car.py` is representable as `⊥`. -/

/-- A fitness value; `⊥` models `-np.inf`. -/
abbrev Fitness := WithBot ℚ

/-- The individual container: fitness (unset until evaluated), genome, and
lineage identifier. -/
structure Individual where
  fitness : Option Fitness
  genome : Genome
  idx : Nat
deriving DecidableEq

/-- The objective of `test_cgp_evolve.py` (lines 12–35): return the
individual unchanged if its fitness is already set, otherwise compute the
fitness from the genome (the torch-based loss is the external collaborator
`compute`) and set it. -/
def objective (compute : Genome → Fitness) (ind : Individual) : Individual :=
  if ind.fitness.isSome then ind
  else { ind with fitness := some (compute ind.genome) }

/-- **C8** — The objective function is idempotent: for every individual whose
fitness is already set, applying the objective returns that individual
unchanged; the objective sets fitness only when it is unset (leaving genome
and lineage id untouched) and always returns the individual. -/
theorem claim_C8 (compute : Genome → Fitness) :
    (∀ ind : Individual, ind.fitness.isSome → objective compute ind = ind) ∧
    (∀ ind : Individual, objective compute (objective compute ind) = objective compute ind) ∧
    (∀ ind : Individual, ind.fitness = none →
        (objective compute ind).fitness = some (compute ind.genome)) ∧
    (∀ ind : Individual, (objective compute ind).genome = ind.genome ∧
        (objective compute ind).idx = ind.idx ∧ (objective compute ind).fitness.isSome) := by
  refine ⟨?_, ?_, ?_, ?_⟩
  · intro ind h
    simp [objective, h]
  · intro ind
    by_cases h : ind.fitness.isSome
    · simp [objective, h]
    · simp [objective, h]
  · intro ind h
    simp [objective, h]
  · intro ind
    by_cases h : ind.fitness.isSome
    · simp [objective, h]
    · simp [objective, h]

/-- Witness for C8: a concrete individual with fitness already set is
returned unchanged. -/
theorem claim_C8_witness :
    (({ fitness := some 0, genome := gNeutralA, idx := 0 } : Individual).fitness.isSome) ∧
      objective (fun _ => 0) { fitness := some 0, genome := gNeutralA, idx := 0 } =
        { fitness := some 0, genome := gNeutralA, idx := 0 } :=
  ⟨rfl, (claim_C8 (fun _ => 0)).1 _ rfl⟩

/-! ### Error handling of generated-code evaluation

From `examples/example_mountain_car.py` (objective, lines 100–126): the
evaluation of the generated callable may raise `ZeroDivisionError`; the
objective collaborator catches it and assigns the sentinel fitness
`-np.inf`.  The core evaluator (`nodeImplScalarSemE` plugged into
`evalGenome`) only propagates the error. -/

/-- Scalar semantics of the `node_impl.py` primitives with Python's fallible
division: `Div` (function id 4) raises `ZeroDivisionError` on a zero
denominator, everything else is error-free. -/
def nodeImplScalarSemE (pw : ℚ → ℚ → ℚ) (pv : ℚ) : Nat → List ℚ → Except String ℚ :=
  fun f args =>
    if f = 4 ∧ args.getD 1 0 = 0 then .error "ZeroDivisionError"
    else .ok (nodeImplScalarSem pw pv f args)

/-- The objective of `example_mountain_car.py`: return the individual if its
fitness is set; otherwise evaluate the generated callable on the
observations `xs` and score the outputs (the gym episode loop is the
external collaborator `score`); on `ZeroDivisionError` assign the sentinel
fitness `-np.inf` (`⊥`). -/
def exObjective (p : GenomeParams) (pw : ℚ → ℚ → ℚ) (pv : ℚ)
    (score : List ℚ → Fitness) (xs : List ℚ) (ind : Individual) : Individual :=
  if ind.fitness.isSome then ind
  else
    match evalGenome p (nodeImplScalarSemE pw pv) ind.genome xs with
    | .ok ys => { ind with fitness := some (score ys) }
    | .error _ => { ind with fitness := some ⊥ }

/-- Parameters for the division-by-zero genome: one input, a 1 × 1 grid, the
seven `node_impl.py` primitives. -/
def pDiv : GenomeParams :=
  { n_inputs := 1, n_outputs := 1, n_columns := 1, n_rows := 1, levels_back := 1,
    arities := nodeImplPrimitives.map (·._arity), max_arity := 2 }

/-- A genome whose single interior node divides the primary input by itself
(`x_0 / x_0`), which raises `ZeroDivisionError` at input `0`. -/
def gDiv : Genome := ⟨[[4, 0, 0]], [1]⟩

/-- **C6** — Arithmetic errors raised while evaluating a generated callable
(e.g. division by zero) are not caught or translated inside the code
generator or evolution driver: the evaluator propagates
`ZeroDivisionError` verbatim; the objective collaborator catches it and
assigns the sentinel worst-possible fitness `⊥` (`-np.inf`); and after the
objective every individual has a fitness set, so a per-individual evaluation
error never aborts the run. -/
theorem claim_C6 (pw : ℚ → ℚ → ℚ) (pv : ℚ) (score : List ℚ → Fitness) :
    (∀ x : ℚ, x = 0 →
        evalGenome pDiv (nodeImplScalarSemE pw pv) gDiv [x] = .error "ZeroDivisionError") ∧
    (∀ (ind : Individual) (xs : List ℚ) (e : String), ind.fitness = none →
        evalGenome pDiv (nodeImplScalarSemE pw pv) ind.genome xs = .error e →
        exObjective pDiv pw pv score xs ind = { ind with fitness := some ⊥ }) ∧
    (∀ (ind : Individual) (xs : List ℚ),
        (exObjective pDiv pw pv score xs ind).fitness.isSome) := by
  refine ⟨?_, ?_, ?_⟩
  · intro x hx
    subst hx
    simp [evalGenome, evalArgs, evalAddr, refsAt, fidAt, gDiv, pDiv,
      GenomeParams.nNodes, GenomeParams.arityOf, nodeImplPrimitives,
      node_impl.ConstantFloat, node_impl.Add, node_impl.Sub, node_impl.Mul,
      node_impl.Div, node_impl.Pow, node_impl.Parameter, nodeImplScalarSemE]
  · intro ind xs e hnone herr
    simp [exObjective, hnone, herr]
  · intro ind xs
    by_cases h : ind.fitness.isSome
    · simp [exObjective, h]
    · simp only [exObjective, h, if_false]
      cases evalGenome pDiv (nodeImplScalarSemE pw pv) ind.genome xs <;> simp

/-- Witness for C6: at input `[0]` the division genome's evaluation errors,
and the objective converts the error into the sentinel fitness. -/
theorem claim_C6_witness :
    ((0 : ℚ) = 0 ∧
      evalGenome pDiv (nodeImplScalarSemE (fun a b => a * b) 1) gDiv [0] =
        .error "ZeroDivisionError") ∧
    (({ fitness := none, genome := gDiv, idx := 0 } : Individual).fitness = none ∧
      exObjective pDiv (fun a b => a * b) 1 (fun _ => 0) [0]
          { fitness := none, genome := gDiv, idx := 0 } =
        { fitness := some ⊥, genome := gDiv, idx := 0 }) := by
  have h1 := (claim_C6 (fun a b => a * b) 1 (fun _ => 0)).1 0 rfl
  refine ⟨⟨rfl, h1⟩, ⟨rfl, ?_⟩⟩
  exact (claim_C6 (fun a b => a * b) 1 (fun _ => 0)).2.1 _ [0] _ rfl h1

/-- **C10** — For a freshly constructed `Parameter` node, the initial-value
sampler of its single parameter `<p>` returns exactly `1.0` on every call, so
before any local-search perturbation a `Parameter` node's generated output in
every backend (scalar/sympy template, numpy, torch) equals `ConstantFloat`'s
constant `1.0` output. -/
theorem claim_C10 :
    (∀ s ∈ node_impl.Parameter_initial_values, s.1 = "<p>" ∧ ∀ k : Nat, s.2 k = 1) ∧
    (∀ (pw : ℚ → ℚ → ℚ) (v : Nat → ℚ) (pv : ℚ),
        node_impl.Parameter._def_output.eval pw v 1 =
          node_impl.ConstantFloat._def_output.eval pw v pv) ∧
    (∀ (pw : ℚ → ℚ → ℚ) (args : List ℚ) (pv : ℚ),
        nodeImplScalarSem pw 1 6 args = nodeImplScalarSem pw pv 0 args) ∧
    (∀ (ι : Type) (i : ι) (pw : ℚ → ℚ → ℚ) (args : List (ι → ℚ)) (pv : ℚ),
        nodeImplNumpySem pw 1 6 args i = nodeImplNumpySem pw pv 0 args i) ∧
    (∀ (ι : Type) (i : ι) (pw : ℚ → ℚ → ℚ) (args : List (ι → ℚ)) (pv : ℚ),
        nodeImplTorchSem pw 1 6 args i = nodeImplTorchSem pw pv 0 args i) := by
  refine ⟨?_, ?_, ?_, ?_, ?_⟩
  · intro s hs
    simp only [node_impl.Parameter_initial_values, List.mem_singleton] at hs
    subst hs
    exact ⟨rfl, fun k => rfl⟩
  · intro pw v pv
    simp [node_impl.Parameter, node_impl.ConstantFloat, Ex.eval]
  · intro pw args pv
    simp [nodeImplScalarSem]
  · intro ι i pw args pv
    simp [nodeImplNumpySem]
  · intro ι i pw args pv
    simp [nodeImplTorchSem]

/-- Witness for C10: the sampler entry itself, applied at call number 5. -/
theorem claim_C10_witness :
    (("<p>", fun _ => (1 : ℚ)) : String × (Nat → ℚ)) ∈ node_impl.Parameter_initial_values ∧
      ((("<p>", fun _ => (1 : ℚ)) : String × (Nat → ℚ)).2) 5 = 1 := by
  have hm : (("<p>", fun _ => (1 : ℚ)) : String × (Nat → ℚ)) ∈
      node_impl.Parameter_initial_values := by
    simp [node_impl.Parameter_initial_values]
  exact ⟨hm, (claim_C10.1 _ hm).2 5⟩

/-! ### Population, champion and μ+λ selection

Modelled from the spec (§3 Population, §4.4): ranking is by fitness
descending with ties broken by lower lineage id; an unset fitness ranks below
every set fitness. -/

instance : Inhabited Individual := ⟨⟨none, ⟨[], []⟩, 0⟩⟩

/-- Ranking key of an individual: its fitness, with "unset" below every set
value. -/
def fitKey (ind : Individual) : WithBot Fitness :=
  match ind.fitness with
  | none => ⊥
  | some f => (f : WithBot Fitness)

/-- `a` is strictly better than `b`: higher fitness, or equal fitness and
lower lineage id. -/
def better (a b : Individual) : Prop :=
  fitKey b < fitKey a ∨ (fitKey a = fitKey b ∧ a.idx < b.idx)

instance : DecidableRel better := fun a b => by unfold better; infer_instance

/-- `a` ranks at least as well as `b` (the sort order of μ+λ selection). -/
def rankLE (a b : Individual) : Prop :=
  fitKey b < fitKey a ∨ (fitKey a = fitKey b ∧ a.idx ≤ b.idx)

instance : DecidableRel rankLE := fun a b => by unfold rankLE; infer_instance

instance : IsTotal Individual rankLE := by
  constructor
  intro a b
  rcases lt_trichotomy (fitKey a) (fitKey b) with h | h | h
  · exact Or.inr (Or.inl h)
  · rcases Nat.le_total a.idx b.idx with hi | hi
    · exact Or.inl (Or.inr ⟨h, hi⟩)
    · exact Or.inr (Or.inr ⟨h.symm, hi⟩)
  · exact Or.inl (Or.inl h)

instance : IsTrans Individual rankLE := by
  constructor
  intro a b c hab hbc
  rcases hab with h1 | ⟨h1, hi1⟩ <;> rcases hbc with h2 | ⟨h2, hi2⟩
  · exact Or.inl (lt_trans h2 h1)
  · exact Or.inl (h2 ▸ h1)
  · exact Or.inl (by rw [h1]; exact h2)
  · exact Or.inr ⟨h1.trans h2, le_trans hi1 hi2⟩

theorem rankLE_fitKey {a b : Individual} (h : rankLE a b) : fitKey b ≤ fitKey a := by
  rcases h with h | ⟨h, _⟩
  · exact le_of_lt h
  · exact le_of_eq h.symm

/-- First-found maximum of a nonempty list with respect to `better` (ties
keep the earlier element, i.e. the first found). -/
def foldBest (x : Individual) (xs : List Individual) : Individual :=
  xs.foldl (fun b y => if better y b then y else b) x

/-- The champion of the current parents: the fitness-maximal individual, ties
broken by first found (spec §3, §4.4). -/
def champion : List Individual → Option Individual
  | [] => none
  | x :: xs => some (foldBest x xs)

/-- The champion's fitness key (`⊥` for an empty population). -/
def championFitness (l : List Individual) : WithBot Fitness :=
  (champion l).elim ⊥ fitKey

theorem le_fitKey_foldBest (xs : List Individual) :
    ∀ x : Individual, fitKey x ≤ fitKey (foldBest x xs) := by
  induction xs with
  | nil => intro x; exact le_refl _
  | cons y ys ih =>
    intro x
    show fitKey x ≤ fitKey (foldBest (if better y x then y else x) ys)
    refine le_trans ?_ (ih _)
    by_cases h : better y x
    · rw [if_pos h]
      rcases h with h | ⟨h, _⟩
      · exact le_of_lt h
      · exact le_of_eq h.symm
    · rw [if_neg h]

theorem mem_foldBest (xs : List Individual) :
    ∀ x : Individual, foldBest x xs ∈ x :: xs := by
  induction xs with
  | nil => intro x; exact List.mem_singleton.mpr rfl
  | cons y ys ih =>
    intro x
    show foldBest (if better y x then y else x) ys ∈ x :: y :: ys
    have h := ih (if better y x then y else x)
    rcases List.mem_cons.mp h with h1 | h1
    · rw [h1]
      by_cases hb : better y x
      · simp [hb]
      · simp [hb]
    · exact List.mem_cons_of_mem _ (List.mem_cons_of_mem _ h1)

theorem fitKey_le_foldBest_of_mem (xs : List Individual) :
    ∀ (x : Individual), ∀ y ∈ xs, fitKey y ≤ fitKey (foldBest x xs) := by
  induction xs with
  | nil => intro x y hy; cases hy
  | cons z ys ih =>
    intro x y hy
    rcases List.mem_cons.mp hy with h1 | h1
    · subst h1
      show fitKey y ≤ fitKey (foldBest (if better y x then y else x) ys)
      refine le_trans ?_ (le_fitKey_foldBest ys _)
      by_cases hb : better y x
      · rw [if_pos hb]
      · rw [if_neg hb]
        rcases not_or.mp hb with ⟨hlt, _⟩
        exact le_of_not_lt hlt
    · exact ih _ y h1

/-- Every member's fitness key is at most the champion's. -/
theorem fitKey_le_championFitness {l : List Individual} {x : Individual} (hx : x ∈ l) :
    fitKey x ≤ championFitness l := by
  cases l with
  | nil => cases hx
  | cons y ys =>
    rcases List.mem_cons.mp hx with h | h
    · subst h
      exact le_fitKey_foldBest ys x
    · exact fitKey_le_foldBest_of_mem ys y x h

/-- μ+λ parent replacement (spec §4.4): the best `n` individuals of the union
of current parents and evaluated offspring, ranked by fitness descending with
ties broken by lower lineage id. -/
def muPlusLambda (n : Nat) (parents offspring : List Individual) : List Individual :=
  (List.insertionSort rankLE (parents ++ offspring)).take n

/-- The champion of the selected μ+λ parents is at least as fit as every
member of the selection pool. -/
theorem championFitness_muPlusLambda_ge (n : Nat) (hn : 0 < n)
    (parents offspring : List Individual) (hne : parents ≠ []) :
    championFitness parents ≤ championFitness (muPlusLambda n parents offspring) := by
  have hperm := List.perm_insertionSort rankLE (parents ++ offspring)
  have hsorted := List.sorted_insertionSort rankLE (parents ++ offspring)
  have hne2 : List.insertionSort rankLE (parents ++ offspring) ≠ [] := by
    intro hcon
    have hlen := hperm.length_eq
    rw [hcon] at hlen
    simp at hlen
    have hp0 : parents.length = 0 := by omega
    exact hne (List.length_eq_zero.mp hp0)
  cases hs : List.insertionSort rankLE (parents ++ offspring) with
  | nil => exact absurd hs hne2
  | cons h t =>
    rw [hs] at hsorted hperm
    -- the head of the sorted pool dominates the old champion
    cases hp : parents with
    | nil => exact absurd hp hne
    | cons p ps =>
      have hc0mem : foldBest p ps ∈ parents := by rw [hp]; exact mem_foldBest ps p
      have hc0pool : foldBest p ps ∈ h :: t :=
        hperm.mem_iff.mpr (List.mem_append_left _ hc0mem)
      have hc0le : fitKey (foldBest p ps) ≤ fitKey h := by
        rcases List.mem_cons.mp hc0pool with he | ht
        · exact le_of_eq (congrArg fitKey he)
        · exact rankLE_fitKey (List.rel_of_sorted_cons hsorted _ ht)
      have hchamp_old : championFitness (p :: ps) = fitKey (foldBest p ps) := rfl
      obtain ⟨m, hm⟩ : ∃ m, n = m + 1 := ⟨n - 1, by omega⟩
      have htake : muPlusLambda n parents offspring = h :: t.take m := by
        unfold muPlusLambda
        rw [hs, hm]
        rfl
      have hhead : fitKey h ≤ championFitness (muPlusLambda n parents offspring) := by
        rw [htake]
        exact fitKey_le_championFitness (List.mem_cons_self _ _)
      calc championFitness (p :: ps) = fitKey (foldBest p ps) := hchamp_old
        _ ≤ fitKey h := hc0le
        _ ≤ championFitness (muPlusLambda n (p :: ps) offspring) := by
            rw [← hp]; exact hhead

theorem muPlusLambda_ne_nil (n : Nat) (hn : 0 < n)
    (parents offspring : List Individual) (hne : parents ≠ []) :
    muPlusLambda n parents offspring ≠ [] := by
  have hperm := List.perm_insertionSort rankLE (parents ++ offspring)
  have hne2 : List.insertionSort rankLE (parents ++ offspring) ≠ [] := by
    intro hcon
    have hlen := hperm.length_eq
    rw [hcon] at hlen
    simp at hlen
    have hp0 : parents.length = 0 := by omega
    exact hne (List.length_eq_zero.mp hp0)
  cases hs : List.insertionSort rankLE (parents ++ offspring) with
  | nil => exact absurd hs hne2
  | cons h t =>
    obtain ⟨m, hm⟩ : ∃ m, n = m + 1 := ⟨n - 1, by omega⟩
    unfold muPlusLambda
    rw [hs, hm]
    simp

/-- One generation of the modelled evolutionary loop (spec §4.5): breed and
evaluate offspring (abstracted as `offGen`, which may depend on the
generation index and the current parents), then μ+λ parent replacement. -/
def nextGeneration (n : Nat) (offGen : Nat → List Individual → List Individual)
    (g : Nat) (parents : List Individual) : List Individual :=
  muPlusLambda n parents (offGen g parents)

/-- The parent populations of successive generations. -/
def generations (n : Nat) (offGen : Nat → List Individual → List Individual)
    (parents0 : List Individual) : Nat → List Individual
  | 0 => parents0
  | g + 1 => nextGeneration n offGen g (generations n offGen parents0 g)

theorem generations_ne_nil (n : Nat) (hn : 0 < n)
    (offGen : Nat → List Individual → List Individual)
    (parents0 : List Individual) (hne : parents0 ≠ []) :
    ∀ g, generations n offGen parents0 g ≠ [] := by
  intro g
  induction g with
  | zero => exact hne
  | succ m ih => exact muPlusLambda_ne_nil n hn _ _ ih

/-- **C2** — For every evolutionary run using μ+λ replacement (next parent
generation = best `n_parents` of the union of current parents and evaluated
offspring, ties broken by lower lineage id), the champion's fitness is
non-decreasing across generations: the best-ever individual is never lost. -/
theorem claim_C2 (n : Nat) (offGen : Nat → List Individual → List Individual)
    (parents0 : List Individual) (hn : 0 < n) (hne : parents0 ≠ []) :
    ∀ g, championFitness (generations n offGen parents0 g) ≤
      championFitness (generations n offGen parents0 (g + 1)) := by
  intro g
  exact championFitness_muPlusLambda_ge n hn _ _ (generations_ne_nil n hn offGen parents0 hne g)

/-- Witness for C2 at a concrete one-parent population. -/
theorem claim_C2_witness :
    (0 : Nat) < 1 ∧
      ([({ fitness := some 0, genome := gNeutralA, idx := 0 } : Individual)] ≠
        ([] : List Individual)) ∧
      ∀ g, championFitness (generations 1 (fun _ _ => [])
          [{ fitness := some 0, genome := gNeutralA, idx := 0 }] g) ≤
        championFitness (generations 1 (fun _ _ => [])
          [{ fitness := some 0, genome := gNeutralA, idx := 0 }] (g + 1)) :=
  ⟨by decide, by simp,
    claim_C2 1 (fun _ _ => []) [{ fitness := some 0, genome := gNeutralA, idx := 0 }]
      (by decide) (by simp)⟩

/-! ### The evolution driver's termination condition

Modelled from the spec (§4.5): per generation, produce and evaluate offspring
and select new parents (all folded into `step`), then terminate when
`champion.fitness >= termination_fitness` or the generation count reaches
`max_generations`. -/

/-- The generational loop of `evolve`: runs at most `maxGen` generations,
stopping early as soon as the champion's fitness reaches `termination`;
returns the final parents and the number of generations executed. -/
def evolveLoop (step : List Individual → List Individual)
    (termination : WithBot Fitness) : Nat → List Individual → List Individual × Nat
  | 0, parents => (parents, 0)
  | maxg + 1, parents =>
    let parents' := step parents
    if termination ≤ championFitness parents' then (parents', 1)
    else
      let r := evolveLoop step termination maxg parents'
      (r.1, r.2 + 1)

/-- **C5** — The evolution driver's generational loop terminates exactly when
`champion.fitness >= termination_fitness` or the generation count reaches
`max_generations`; in particular, if the loop exits before `max_generations`
generations, then `champion.fitness >= termination_fitness` holds at exit. -/
theorem claim_C5 (step : List Individual → List Individual)
    (termination : WithBot Fitness) (maxGen : Nat) (parents : List Individual) :
    (evolveLoop step termination maxGen parents).2 ≤ maxGen ∧
    ((evolveLoop step termination maxGen parents).2 < maxGen →
      termination ≤ championFitness (evolveLoop step termination maxGen parents).1) ∧
    (¬ termination ≤ championFitness (evolveLoop step termination maxGen parents).1 →
      (evolveLoop step termination maxGen parents).2 = maxGen) := by
  induction maxGen generalizing parents with
  | zero => exact ⟨le_refl _, by omega, fun _ => rfl⟩
  | succ m ih =>
    by_cases h : termination ≤ championFitness (step parents)
    · have he : evolveLoop step termination (m + 1) parents = (step parents, 1) := by
        simp [evolveLoop, h]
      rw [he]
      exact ⟨by omega, fun _ => h, fun hc => absurd h hc⟩
    · have he : evolveLoop step termination (m + 1) parents =
          ((evolveLoop step termination m (step parents)).1,
           (evolveLoop step termination m (step parents)).2 + 1) := by
        simp [evolveLoop, h]
      rw [he]
      rcases ih (step parents) with ⟨h1, h2, h3⟩
      exact ⟨by omega, fun hlt => h2 (by omega), fun hc => by rw [h3 hc]⟩

/-- Witness for C5: a loop that reaches the termination fitness in its first
generation exits after 1 of 3 generations with the condition satisfied. -/
theorem claim_C5_witness :
    (evolveLoop (fun _ => [{ fitness := some 1, genome := gNeutralA, idx := 0 }])
        ⊥ 3 []).2 < 3 ∧
      ⊥ ≤ championFitness (evolveLoop
        (fun _ => [{ fitness := some 1, genome := gNeutralA, idx := 0 }]) ⊥ 3 []).1 :=
  ⟨by decide,
    (claim_C5 (fun _ => [{ fitness := some 1, genome := gNeutralA, idx := 0 }]) ⊥ 3 []).2.1
      (by decide)⟩

/-! ### Population and its stochastic operations

Modelled from the spec (§3, §4.4, §9): the Population owns its RNG handle
(`rng`) and a lineage-id counter (`nextIdx`); every stochastic operation
draws from the population's own RNG state and advances it, never from the
ambient global RNG.  The ambient global RNG is made explicit as an extra
argument of the `...Ambient` wrappers, which the operations do not consult. -/

structure Population where
  parents : List Individual
  offsprings : List Individual
  rng : Rng
  nextIdx : Nat
deriving DecidableEq

structure PopParams where
  n_parents : Nat
  n_offsprings : Nat
  tournament_size : Nat
  n_mutations : Nat

/-- Generate `count` fresh random individuals with consecutive lineage ids,
threading the population RNG. -/
def genRandomInds (p : GenomeParams) : Nat → Nat → Rng → List Individual × Rng
  | 0, _, s => ([], s)
  | count + 1, idx, s =>
    let (g, s1) := randomGenome p s
    let (rest, s2) := genRandomInds p count (idx + 1) s1
    ({ fitness := none, genome := g, idx := idx } :: rest, s2)

/-- `generate_random_parent_population`: fill `parents` with `n_parents`
independently random genomes, drawing only from the population's own RNG. -/
def generate_random_parent_population (p : GenomeParams) (cfg : PopParams)
    (pop : Population) : Population :=
  let (inds, s') := genRandomInds p cfg.n_parents pop.nextIdx pop.rng
  { pop with parents := inds, rng := s', nextIdx := pop.nextIdx + cfg.n_parents }

/-- `generate_random_offspring_population`: fill `offsprings` with
`n_offsprings` independently random genomes. -/
def generate_random_offspring_population (p : GenomeParams) (cfg : PopParams)
    (pop : Population) : Population :=
  let (inds, s') := genRandomInds p cfg.n_offsprings pop.nextIdx pop.rng
  { pop with offsprings := inds, rng := s', nextIdx := pop.nextIdx + cfg.n_offsprings }

/-- Sample `k` tournament candidates uniformly (with replacement) from the
parents. -/
def sampleCandidates (parents : List Individual) : Nat → Rng → List Individual × Rng
  | 0, s => ([], s)
  | k + 1, s =>
    let (i, s1) := randBelow s parents.length
    let (rest, s2) := sampleCandidates parents k s1
    (parents.getD i default :: rest, s2)

/-- Best of a candidate list, ties broken by first encountered (spec §4.4). -/
def bestOf : List Individual → Individual
  | [] => default
  | x :: xs => foldBest x xs

/-- Breed one offspring: tournament selection, clone the winner's genome,
mutate it, reset fitness to unset, assign a fresh lineage id. -/
def breed (p : GenomeParams) (cfg : PopParams) (parents : List Individual)
    (idx : Nat) (s : Rng) : Individual × Rng :=
  let (cands, s1) := sampleCandidates parents cfg.tournament_size s
  let winner := bestOf cands
  let (gm, s2) := mutate p cfg.n_mutations (winner.genome, s1)
  ({ fitness := none, genome := gm, idx := idx }, s2)

/-- Breed `count` offspring with consecutive lineage ids. -/
def breedMany (p : GenomeParams) (cfg : PopParams) (parents : List Individual) :
    Nat → Nat → Rng → List Individual × Rng
  | 0, _, s => ([], s)
  | count + 1, idx, s =>
    let (ind, s1) := breed p cfg parents idx s
    let (rest, s2) := breedMany p cfg parents count (idx + 1) s1
    (ind :: rest, s2)

/-- `create_new_offspring_population`: the breeding step of spec §4.4. -/
def create_new_offspring_population (p : GenomeParams) (cfg : PopParams)
    (pop : Population) : Population :=
  let (offs, s') := breedMany p cfg pop.parents cfg.n_offsprings pop.nextIdx pop.rng
  { pop with offsprings := offs, rng := s', nextIdx := pop.nextIdx + cfg.n_offsprings }

/-- `generate_random_parent_population` with the ambient global RNG made
explicit: the operation does not consult it and returns it unchanged. -/
def generate_random_parent_populationAmbient (p : GenomeParams) (cfg : PopParams)
    (globalRng : Rng) (pop : Population) : Population × Rng :=
  (generate_random_parent_population p cfg pop, globalRng)

/-- `generate_random_offspring_population` with the ambient global RNG made
explicit. -/
def generate_random_offspring_populationAmbient (p : GenomeParams) (cfg : PopParams)
    (globalRng : Rng) (pop : Population) : Population × Rng :=
  (generate_random_offspring_population p cfg pop, globalRng)

/-- `create_new_offspring_population` with the ambient global RNG made
explicit. -/
def create_new_offspring_populationAmbient (p : GenomeParams) (cfg : PopParams)
    (globalRng : Rng) (pop : Population) : Population × Rng :=
  (create_new_offspring_population p cfg pop, globalRng)

/-- The population configuration of `test_cgp_evolve.py`
(`n_parents=5`, `n_offsprings=5`, `tournament_size=2`; `mutation_rate=0.05`
on 29 genes gives one point mutation per offspring). -/
def cfgTest : PopParams :=
  { n_parents := 5, n_offsprings := 5, tournament_size := 2, n_mutations := 1 }

/-- A fresh population seeded as in the test. -/
def popSeedTest : Population := ⟨[], [], 1234, 0⟩

/-- The test population's parents with the dummy fitness values `0, 1, ...`
assigned in `test_cgp_pop_uses_own_rng`. -/
def popBreedTest : Population :=
  let pop1 := generate_random_parent_population pTest cfgTest popSeedTest
  { pop1 with
      parents := (pop1.parents.zip (List.range pop1.parents.length)).map
        (fun pr => { pr.1 with fitness := some ((pr.2 : ℚ) : Fitness) }) }

def popParents1 : Population := generate_random_parent_population pTest cfgTest popSeedTest

def popParents2 : Population := generate_random_parent_population pTest cfgTest popParents1

def popOffs1 : Population := generate_random_offspring_population pTest cfgTest popSeedTest

def popOffs2 : Population := generate_random_offspring_population pTest cfgTest popOffs1

def popBreed1 : Population := create_new_offspring_population pTest cfgTest popBreedTest

def popBreed2 : Population := create_new_offspring_population pTest cfgTest popBreed1

/-- **C9** — Every stochastic population operation
(`generate_random_parent_population`, `generate_random_offspring_population`,
`create_new_offspring_population`) draws randomness only from the
population's own RNG handle, never from the ambient global RNG: the result is
independent of the global RNG state and leaves it untouched; consequently, at
the test configuration, re-seeding the global RNG identically before two
successive calls of the same operation still produces different genomes on
each call (pairwise different raw dna, as asserted in
`test_cgp_pop_uses_own_rng`), because the population's own RNG stream has
advanced. -/
theorem claim_C9 :
    (∀ (p : GenomeParams) (cfg : PopParams) (g1 g2 : Rng) (pop : Population),
        (generate_random_parent_populationAmbient p cfg g1 pop).1 =
          (generate_random_parent_populationAmbient p cfg g2 pop).1 ∧
        (generate_random_offspring_populationAmbient p cfg g1 pop).1 =
          (generate_random_offspring_populationAmbient p cfg g2 pop).1 ∧
        (create_new_offspring_populationAmbient p cfg g1 pop).1 =
          (create_new_offspring_populationAmbient p cfg g2 pop).1 ∧
        (generate_random_parent_populationAmbient p cfg g1 pop).2 = g1 ∧
        (generate_random_offspring_populationAmbient p cfg g1 pop).2 = g1 ∧
        (create_new_offspring_populationAmbient p cfg g1 pop).2 = g1) ∧
    popParents1.rng ≠ popSeedTest.rng ∧
    popOffs1.rng ≠ popSeedTest.rng ∧
    popBreed1.rng ≠ popBreedTest.rng ∧
    (∀ pr ∈ popParents1.parents.zip popParents2.parents,
        pr.1.genome.dna ≠ pr.2.genome.dna) ∧
    (∀ pr ∈ popOffs1.offsprings.zip popOffs2.offsprings,
        pr.1.genome.dna ≠ pr.2.genome.dna) ∧
    (∀ pr ∈ popBreed1.offsprings.zip popBreed2.offsprings,
        pr.1.genome.dna ≠ pr.2.genome.dna) := by
  refine ⟨fun p cfg g1 g2 pop => ⟨rfl, rfl, rfl, rfl, rfl, rfl⟩, ?_, ?_, ?_, ?_, ?_, ?_⟩
  all_goals
    set_option maxRecDepth 100000 in decide

/-! ### Parallel fitness evaluation does not change the results

Modelled from the spec (§5, §9): fitness evaluation partitions the offspring
sequence into independent tasks for a bounded worker pool; each objective
invocation reads only its own individual, and the single RNG is advanced
sequentially outside the evaluation step, so the degree of parallelism must
not perturb which genomes are created or selected. -/

/-- Split a list into consecutive chunks of size `c` (fuel-guarded). -/
def chunksF {α : Type} : Nat → Nat → List α → List (List α)
  | _, _, [] => []
  | 0, _, l => [l]
  | fuel + 1, c, x :: xs => (x :: xs).take c :: chunksF fuel c ((x :: xs).drop c)

/-- Evaluate `f` on `l` with `w` parallel workers: partition into chunks of
size `w`, let each worker map its chunk, and reassemble in the original
order. -/
def parallelEval {α β : Type} (w : Nat) (f : α → β) (l : List α) : List β :=
  ((chunksF l.length w l).map (List.map f)).flatten

theorem chunksF_flatten {α : Type} :
    ∀ (fuel c : Nat) (l : List α), l.length ≤ fuel → 1 ≤ c →
      (chunksF fuel c l).flatten = l := by
  intro fuel
  induction fuel with
  | zero =>
    intro c l hl hc
    cases l with
    | nil => rfl
    | cons x xs => simp at hl
  | succ m ih =>
    intro c l hl hc
    cases l with
    | nil => rfl
    | cons x xs =>
      show ((x :: xs).take c :: chunksF m c ((x :: xs).drop c)).flatten = x :: xs
      have hrec : (chunksF m c ((x :: xs).drop c)).flatten = (x :: xs).drop c := by
        apply ih
        · simp only [List.length_cons] at hl
          simp only [List.length_drop, List.length_cons]
          omega
        · exact hc
      simp only [List.flatten_cons, hrec, List.take_append_drop]

/-- Parallel evaluation with any positive worker count is exactly the
sequential map: parallelism changes nothing about the results. -/
theorem parallelEval_eq_map {α β : Type} (w : Nat) (hw : 1 ≤ w) (f : α → β) (l : List α) :
    parallelEval w f l = l.map f := by
  unfold parallelEval
  rw [← List.map_flatten, chunksF_flatten l.length w l (le_refl _) hw]

/-- One generation of the evolutionary run with `w` evaluation workers:
breed offspring from the population's own RNG, evaluate their fitness in
parallel, select the new parents by μ+λ. -/
def evolveStepPar (p : GenomeParams) (cfg : PopParams) (w : Nat)
    (obj : Individual → Individual) (pop : Population) : Population :=
  let pop1 := create_new_offspring_population p cfg pop
  let evaluated := parallelEval w obj pop1.offsprings
  { pop1 with offsprings := evaluated,
              parents := muPlusLambda cfg.n_parents pop1.parents evaluated }

/-- A full evolutionary run from a seed with `w` evaluation workers: random
initial parents (from the explicit seed), parallel evaluation, then `gens`
generations. -/
def evolveRunPar (p : GenomeParams) (cfg : PopParams) (w : Nat)
    (obj : Individual → Individual) (seed : Rng) : Nat → Population
  | 0 =>
    let pop0 := generate_random_parent_population p cfg ⟨[], [], seed, 0⟩
    { pop0 with parents := parallelEval w obj pop0.parents }
  | gens + 1 => evolveStepPar p cfg w obj (evolveRunPar p cfg w obj seed gens)

theorem evolveStepPar_eq (p : GenomeParams) (cfg : PopParams) (w1 w2 : Nat)
    (h1 : 1 ≤ w1) (h2 : 1 ≤ w2) (obj : Individual → Individual) (pop : Population) :
    evolveStepPar p cfg w1 obj pop = evolveStepPar p cfg w2 obj pop := by
  unfold evolveStepPar
  simp only [parallelEval_eq_map w1 h1, parallelEval_eq_map w2 h2]

/-- **C3** — For every fixed seed and configuration the evaluation pipeline
is a pure function of the explicit RNG seed (repeated runs are identical by
construction), and running the evolutionary loop with any two positive
worker counts (in particular 1, 2, or 4 parallel fitness-evaluation workers)
yields identical populations: the degree of parallelism does not change
which genomes are created or selected. -/
theorem claim_C3 :
    (∀ (α β : Type) (w : Nat), 1 ≤ w → ∀ (f : α → β) (l : List α),
        parallelEval w f l = l.map f) ∧
    (∀ (p : GenomeParams) (cfg : PopParams) (w1 w2 : Nat), 1 ≤ w1 → 1 ≤ w2 →
        ∀ (obj : Individual → Individual) (seed : Rng) (gens : Nat),
          evolveRunPar p cfg w1 obj seed gens = evolveRunPar p cfg w2 obj seed gens) := by
  constructor
  · intro α β w hw f l
    exact parallelEval_eq_map w hw f l
  · intro p cfg w1 w2 h1 h2 obj seed gens
    induction gens with
    | zero =>
      show ({ generate_random_parent_population p cfg ⟨[], [], seed, 0⟩ with
          parents := parallelEval w1 obj
            (generate_random_parent_population p cfg ⟨[], [], seed, 0⟩).parents } :
          Population) = _
      rw [parallelEval_eq_map w1 h1, ← parallelEval_eq_map w2 h2]
      rfl
    | succ m ih =>
      show evolveStepPar p cfg w1 obj (evolveRunPar p cfg w1 obj seed m) = _
      rw [ih]
      exact evolveStepPar_eq p cfg w1 w2 h1 h2 obj _

/-- Witness for C3: 4-worker parallel evaluation of a concrete list equals
the sequential map, and a 2-worker run equals a 4-worker run. -/
theorem claim_C3_witness :
    (1 ≤ 4 ∧ parallelEval 4 (fun n => n + 1) [10, 20, 30, 40, 50, 60] =
      ([10, 20, 30, 40, 50, 60] : List Nat).map (fun n => n + 1)) ∧
    (1 ≤ 2 ∧ ∀ (obj : Individual → Individual) (seed : Rng) (gens : Nat),
      evolveRunPar pTest cfgTest 2 obj seed gens = evolveRunPar pTest cfgTest 4 obj seed gens) :=
  ⟨⟨by decide, claim_C3.1 Nat Nat 4 (by decide) (fun n => n + 1) [10, 20, 30, 40, 50, 60]⟩,
   ⟨by decide, fun obj seed gens =>
      claim_C3.2 pTest cfgTest 2 4 (by decide) (by decide) obj seed gens⟩⟩

end HalCgp
